import Mathlib

set_option maxRecDepth 20000

/- Verification of the ExcelProcessor batch pipeline against its design document.

   The embedding follows src/gui/main_window.py.  The orchestration logic that is
   present in the source (ProcessingThread.run, MainWindow.process_files,
   MainWindow.get_string_values) is translated directly; the collaborator modules it
   imports (core.excel_processor, core.file_handler, utils.validators) are absent from
   the repository, so they appear either as abstract parameters (fields of RunDeps) or
   as definitions modelled from the spec, each marked as such in its doc comment.

   Numeric note: Python's `int((i + 1) / total * 20)` truncates a non-negative real
   quotient, which for these operands equals the natural-number floor division
   `(i + 1) * 20 / total`; the embedding uses the latter. -/

/-- Cell values of the tabular data model: tagged text, number, date, boolean or empty. -/
inductive Cell where
  | text (s : String)
  | number (n : Int)
  | date (s : String)
  | boolean (b : Bool)
  | empty
deriving DecidableEq

/-- A row is a finite mapping from column names to cells, kept as an association list;
columns absent from the list implicitly hold `Cell.empty`. -/
abbrev Row := List (String × Cell)

/-- One loaded spreadsheet: header (ordered column names), ordered rows, source file. -/
structure Table where
  header : List String
  rows : List Row
  source : String
deriving DecidableEq

/-- The five fixed metadata fields captured by the GUI's configuration inputs
(Project Name, Department, Analyst, Report Date, Version). -/
structure MetadataRecord where
  project_name : String
  department : String
  analyst : String
  report_date : String
  version : String
deriving DecidableEq

/-- The fixed metadata field keys, in the order the GUI builds them from its labels. -/
def metadataKeys : List String :=
  ["project_name", "department", "analyst", "report_date", "version"]

/-- Field values of a metadata record, in the fixed key order. -/
def MetadataRecord.values (m : MetadataRecord) : List String :=
  [m.project_name, m.department, m.analyst, m.report_date, m.version]

/-- Events observable on the ProcessingThread signals: progress_updated (an integer
percentage), processing_complete (success message), processing_error (error message). -/
inductive Event where
  | progress (value : Nat)
  | complete (message : String)
  | error (message : String)
deriving DecidableEq

/-- A terminal event is a success or error notification, as opposed to a progress update. -/
def Event.isTerminal : Event → Bool
  | Event.progress _ => false
  | Event.complete _ => true
  | Event.error _ => true

/-- Lower-casing a string character by character (the case-insensitive comparison used
when building the union header). -/
def lowerStr (s : String) : String := ⟨s.data.map Char.toLower⟩

/-- Whitespace trimming on both ends, the model of Python's str.strip(). -/
def trimStr (s : String) : String :=
  ⟨((s.data.dropWhile Char.isWhitespace).reverse.dropWhile Char.isWhitespace).reverse⟩

/-- The final path component, the model of os.path.basename used in the success message. -/
def basename (p : String) : String := ⟨(p.data.reverse.takeWhile (· ≠ '/')).reverse⟩

/-- The collaborators ProcessingThread.run calls.  The modules that define them are
declared in the source's imports but absent from the repository, so the run is
parameterised over their behaviour: FileValidator.validate_file_accessibility and
FileValidator.is_valid_excel_file, FileHandler.load_excel_file,
ExcelProcessor.process_files, FileHandler.save_excel_file.  A raised exception is
embedded as an `Except.error` carrying the exception text. -/
structure RunDeps where
  validate_file_accessibility : String → Bool
  is_valid_excel_file : String → Bool
  load_excel_file : String → Except String Table
  process_files : List Table → MetadataRecord → Except String Table
  save_excel_file : Table → String → Except String Unit

/-- The validation loop of ProcessingThread.run: for each file in order it calls
validate_file_accessibility, raising `Cannot access file: path` on the first failure
(no later file is examined), and otherwise emits progress `(i + 1) * 20 / total`.
`i` is the running 0-based index of the current file. -/
def validateFrom (acc_ok : String → Bool) (total : Nat) : Nat → List String → List Event × Option String
  | _, [] => ([], none)
  | i, f :: fs =>
    if acc_ok f then
      let rest := validateFrom acc_ok total (i + 1) fs
      (Event.progress ((i + 1) * 20 / total) :: rest.1, rest.2)
    else
      ([], some ("Cannot access file: " ++ f))

/-- The loading loop of ProcessingThread.run: for each file in order it calls
load_excel_file, aborting on the first error, and otherwise appends the loaded table
and emits progress `20 + (i + 1) * 40 / total`. -/
def loadFrom (load_file : String → Except String Table) (total : Nat) :
    Nat → List String → List Event × Except String (List Table)
  | _, [] => ([], Except.ok [])
  | i, f :: fs =>
    match load_file f with
    | Except.error e => ([], Except.error e)
    | Except.ok t =>
      let rest := loadFrom load_file total (i + 1) fs
      (Event.progress (20 + (i + 1) * 40 / total) :: rest.1, rest.2.map (t :: ·))

/-- ProcessingThread.run (src/gui/main_window.py, lines 234-293), as the ordered list of
events its signals emit: validation loop, loading loop, progress 70, process_files,
progress 85, save_excel_file, progress 100, then the processing_complete message; the
surrounding try/except turns the first raised exception into one processing_error
event carrying `Error during processing: ` plus the exception text. -/
def ProcessingThread.run (d : RunDeps) (input_files : List String)
    (string_values : MetadataRecord) (output_path : String) : List Event :=
  let total_files := input_files.length
  let v := validateFrom d.validate_file_accessibility total_files 0 input_files
  match v.2 with
  | some e => v.1 ++ [Event.error ("Error during processing: " ++ e)]
  | none =>
    let l := loadFrom d.load_excel_file total_files 0 input_files
    match l.2 with
    | Except.error e => v.1 ++ l.1 ++ [Event.error ("Error during processing: " ++ e)]
    | Except.ok loaded_data =>
      match d.process_files loaded_data string_values with
      | Except.error e =>
          v.1 ++ l.1 ++ [Event.progress 70, Event.error ("Error during processing: " ++ e)]
      | Except.ok processed_data =>
        match d.save_excel_file processed_data output_path with
        | Except.error e =>
            v.1 ++ l.1 ++ [Event.progress 70, Event.progress 85,
              Event.error ("Error during processing: " ++ e)]
        | Except.ok _ =>
            v.1 ++ l.1 ++ [Event.progress 70, Event.progress 85, Event.progress 100,
              Event.complete ("Successfully processed " ++ toString total_files ++
                " files and saved to " ++ basename output_path ++ "!")]

/-- The progress percentages of an event list, in emission order. -/
def progressValues (evs : List Event) : List Nat :=
  evs.filterMap fun e =>
    match e with
    | Event.progress v => some v
    | _ => none

/-- The complete progress schedule of a run over `n` files in which every phase
succeeds: the validation band `(i + 1) * 20 / n` and the loading band
`20 + (i + 1) * 40 / n` for the 0-based file indices `i` in order (written below with
`m = i + 1` running over 1..n), then 70, 85, 100. -/
def fullSchedule (n : Nat) : List Nat :=
  ((List.range' 1 n).map fun m => m * 20 / n) ++
    ((List.range' 1 n).map fun m => 20 + m * 40 / n) ++ [70, 85, 100]

/-- MainWindow.get_string_values (lines 531-536): each configuration field's text,
whitespace-stripped, keyed by the fixed field keys. -/
def MainWindow.get_string_values (fields : MetadataRecord) : MetadataRecord :=
  { project_name := trimStr fields.project_name
    department := trimStr fields.department
    analyst := trimStr fields.analyst
    report_date := trimStr fields.report_date
    version := trimStr fields.version }

/-- The fixed maximum length of a metadata field value. -/
def max_field_length : Nat := 256

/-- Modelled from the spec: FileValidator.validate_string_inputs (utils.validators is
absent from the repository); the spec's validateMetadata checks every required field on
its trimmed value, reporting `empty` when blank after trimming and `too long` when it
exceeds the fixed maximum length, and returns all violations together. -/
def validate_string_inputs (string_values : MetadataRecord) : List String :=
  (metadataKeys.zip string_values.values).flatMap fun kv =>
    let t := trimStr kv.2
    (if t = "" then [kv.1 ++ ": empty"] else []) ++
      (if max_field_length < t.length then [kv.1 ++ ": too long"] else [])

/-- Outcome of MainWindow.process_files (lines 538-582): either one of the pre-run
rejections, or a started background run with its event list. -/
inductive StartResult where
  | rejectedNoFiles
  | rejectedNoOutput
  | rejectedInvalidMetadata (errors : List String)
  | started (events : List Event)
deriving DecidableEq

/-- The error taxonomy of the design document. -/
inductive ErrorKind where
  | ValidationError
  | ReadError
  | SchemaConflictError
  | WriteError
  | UnknownError
deriving DecidableEq

/-- Modelled from the spec: the error-kind classification of a pre-run rejection; the
spec's taxonomy files empty input lists, invalid output paths and invalid metadata
fields under ValidationError.  The source reports these rejections as warning dialogs
without a machine-readable kind. -/
def StartResult.errorKind : StartResult → Option ErrorKind
  | StartResult.rejectedNoFiles => some ErrorKind.ValidationError
  | StartResult.rejectedNoOutput => some ErrorKind.ValidationError
  | StartResult.rejectedInvalidMetadata _ => some ErrorKind.ValidationError
  | StartResult.started _ => none

/-- The run events of a start result, when a run was started at all. -/
def StartResult.events : StartResult → Option (List Event)
  | StartResult.started evs => some evs
  | _ => none

/-- MainWindow.process_files (lines 538-582): rejects an empty file list, then a missing
output path, then a metadata record with validation errors; otherwise starts
ProcessingThread.run on the stripped field values. -/
def MainWindow.process_files (d : RunDeps) (input_files : List String)
    (fields : MetadataRecord) (output_path : String) : StartResult :=
  if input_files.isEmpty then StartResult.rejectedNoFiles
  else if output_path = "" then StartResult.rejectedNoOutput
  else
    let string_values := MainWindow.get_string_values fields
    let validation_errors := validate_string_inputs string_values
    if validation_errors.isEmpty then
      StartResult.started (ProcessingThread.run d input_files string_values output_path)
    else
      StartResult.rejectedInvalidMetadata validation_errors

/-- Case-insensitive membership of a column name in a header. -/
def ciMem (header : List String) (c : String) : Bool :=
  header.any fun x => lowerStr x == lowerStr c

/-- One step of building the union header: append the column unless an equal name (up to
case) is already present; the first-seen casing is retained. -/
def unionStep (header : List String) (c : String) : List String :=
  if ciMem header c then header else header ++ [c]

/-- Fold a table's columns into an accumulated union header. -/
def addCols (acc : List String) (cols : List String) : List String :=
  cols.foldl unionStep acc

/-- Modelled from the spec: the union header the MergeEngine builds (the merge lives in
ExcelProcessor.process_files, whose module core.excel_processor is absent from the
repository): iterate tables in input order and append each column name not already
present, compared case-insensitively. -/
def unionHeader (tables : List Table) : List String :=
  tables.foldl (fun acc t => addCols acc t.header) []

/-- All source column names in traversal order (tables in input order, then that
table's header order). -/
def concatHeaders : List Table → List String
  | [] => []
  | t :: ts => t.header ++ concatHeaders ts

/-- A cell of a row by column name; absent columns read as empty. -/
def rowGet (r : Row) (c : String) : Cell :=
  match r.find? (fun p => p.1 == c) with
  | some p => p.2
  | none => Cell.empty

/-- Modelled from the spec: one merged output row: the source row's cells for every data
column (empty where the column is absent from the source row), then the metadata
columns holding the run's metadata values. -/
def mergedRow (dataCols : List String) (md : MetadataRecord) (r : Row) : Row :=
  (dataCols.map fun c => (c, rowGet r c)) ++ metadataKeys.zip (md.values.map Cell.text)

/-- Modelled from the spec: MergeEngine.merge / ExcelProcessor.process_files: the merged
table's header is the case-insensitive union of the source headers followed by the
metadata keys, and its rows are every source row in input order, merged; append-only,
no aggregation or filtering. -/
def merge (tables : List Table) (md : MetadataRecord) : Table :=
  let dataCols := unionHeader tables
  { header := dataCols ++ metadataKeys
    rows := tables.foldl (fun acc t => acc ++ t.rows.map (mergedRow dataCols md)) []
    source := "merged" }

/-- Reference form of the union-header construction, word for word from the spec: walk
the concatenated column names once, keep a name when no name equal up to case was kept
or already seen before it, in first-seen casing. -/
def dedupFrom (seen : List String) : List String → List String
  | [] => []
  | c :: cs =>
    if ciMem seen c then dedupFrom seen cs
    else c :: dedupFrom (seen ++ [c]) cs

/-- The first column name in a list whose lower-cased form is `k`. -/
def findCI (cols : List String) (k : String) : Option String :=
  cols.find? fun x => lowerStr x == k

/-- An in-memory file system: an association list from paths to file contents, the most
recent entry for a path shadowing older ones. -/
structure FS where
  files : List (String × String)
deriving DecidableEq

/-- The content at a path, if any file is there. -/
def FS.get (fs : FS) (p : String) : Option String :=
  (fs.files.find? fun q => q.1 == p).map Prod.snd

/-- Create or overwrite the file at a path. -/
def FS.set (fs : FS) (p v : String) : FS :=
  ⟨(p, v) :: fs.files⟩

/-- Remove the file at a path. -/
def FS.remove (fs : FS) (p : String) : FS :=
  ⟨fs.files.filter fun q => q.1 != p⟩

/-- The temporary path used while saving: a sibling of the destination in the same
directory. -/
def tmpPath (p : String) : String := p ++ ".tmp"

/-- Modelled from the spec: WorkbookWriter.save / FileHandler.save_excel_file (the
module core.file_handler is absent from the repository): serialize the table to a
temporary path in the destination's directory, then atomically rename it over the
destination; a failed temporary write or a failed rename yields a WriteError and leaves
the destination untouched.  The two fallible I/O steps are driven by the oracle flags
`write_ok` and `rename_ok`. -/
def FileHandler.save_excel_file (serialize : Table → String) (write_ok rename_ok : Bool)
    (fs : FS) (t : Table) (path : String) : FS × Option ErrorKind :=
  if write_ok = false then (fs, some ErrorKind.WriteError)
  else
    let fs1 := fs.set (tmpPath path) (serialize t)
    if rename_ok = false then (fs1, some ErrorKind.WriteError)
    else ((fs1.remove (tmpPath path)).set path (serialize t), none)

/-- Concrete metadata fixture. -/
def md0 : MetadataRecord := ⟨"P1", "D1", "A1", "2024-01-01", "1"⟩

/-- Concrete metadata fixture with a blank project name and an over-long version. -/
def mdBad : MetadataRecord := ⟨" ", "D1", "A1", "2024-01-01", String.mk (List.replicate 257 'x')⟩

/-- Concrete one-row table fixture. -/
def t0 : Table := ⟨["Name", "Amount"], [[("Name", Cell.text "a"), ("Amount", Cell.number 1)]], "f1"⟩

/-- Concrete two-row table fixture whose first column name differs from t0's only in case. -/
def t1 : Table := ⟨["name", "Region"], [[("name", Cell.text "b")], [("name", Cell.text "c")]], "f2"⟩

/-- Collaborators for which every call succeeds. -/
def okDeps : RunDeps :=
  { validate_file_accessibility := fun _ => true
    is_valid_excel_file := fun _ => true
    load_excel_file := fun _ => Except.ok t0
    process_files := fun ts sv => Except.ok (merge ts sv)
    save_excel_file := fun _ _ => Except.ok () }

/-- Collaborators for which every file is accessible and loads fine, but no file passes
the spreadsheet-format check is_valid_excel_file. -/
def cexDeps : RunDeps :=
  { okDeps with is_valid_excel_file := fun _ => false }

/-- Collaborators for which only the file named `good` is accessible. -/
def failDeps : RunDeps :=
  { okDeps with validate_file_accessibility := fun f => f == "good" }

/-- Concrete file-system fixture holding one output file. -/
def fs0 : FS := ⟨[("out.xlsx", "old-content")]⟩

/-- Concrete serializer fixture. -/
def ser0 : Table → String := fun t => t.source

/-! Helper lemmas about index ranges, progress projections and the two per-file loops. -/

theorem range'_split (s m n : Nat) :
    List.range' s (m + n) = List.range' s m ++ List.range' (s + m) n := by
  induction m generalizing s with
  | zero => simp
  | succ m ih =>
    have h : m + 1 + n = (m + n) + 1 := by omega
    have h2 : s + 1 + m = s + (m + 1) := by omega
    rw [h, List.range'_succ s (m + n) 1, ih (s + 1), List.range'_succ s m 1,
      List.cons_append, h2]

theorem range'_ascending (s n : Nat) : (List.range' s n).Pairwise (· < ·) := by
  induction n generalizing s with
  | zero => simp
  | succ n ih =>
    rw [List.range'_succ]
    exact List.Pairwise.cons
      (fun b hb => by have := (List.mem_range'_1.mp hb).1; omega) (ih (s + 1))

theorem filterMap_eq_map_of_some (g : Nat → Nat) (l : List Nat) :
    (l.filterMap fun a => some (g a)) = l.map g := by
  induction l with
  | nil => rfl
  | cons a l ih => simp [List.filterMap_cons, ih]

theorem progressValues_append (a b : List Event) :
    progressValues (a ++ b) = progressValues a ++ progressValues b :=
  List.filterMap_append a b _

theorem progressValues_progress_map (l : List Nat) (g : Nat → Nat) :
    progressValues (l.map fun m => Event.progress (g m)) = l.map g := by
  induction l with
  | nil => rfl
  | cons a l ih => simp [progressValues, List.filterMap_cons] at ih ⊢; exact ih

theorem validateFrom_ok (acc_ok : String → Bool) (total : Nat) (files : List String) :
    ∀ i : Nat, (∀ f ∈ files, acc_ok f = true) →
    validateFrom acc_ok total i files =
      ((List.range' (i + 1) files.length).map fun m => Event.progress (m * 20 / total), none) := by
  induction files with
  | nil => intro i _; rfl
  | cons f fs ih =>
    intro i h
    have hf : acc_ok f = true := h f (List.mem_cons_self f fs)
    have hrest := ih (i + 1) (fun g hg => h g (List.mem_cons_of_mem f hg))
    simp [validateFrom, hf, hrest, List.length_cons, List.range'_succ]

theorem validateFrom_fail (acc_ok : String → Bool) (total : Nat) (pre : List String)
    (bad : String) (post : List String) :
    ∀ i : Nat, (∀ f ∈ pre, acc_ok f = true) → acc_ok bad = false →
    validateFrom acc_ok total i (pre ++ bad :: post) =
      ((List.range' (i + 1) pre.length).map fun m => Event.progress (m * 20 / total),
        some ("Cannot access file: " ++ bad)) := by
  induction pre with
  | nil => intro i _ hbad; simp [validateFrom, hbad]
  | cons f fs ih =>
    intro i h hbad
    have hf : acc_ok f = true := h f (List.mem_cons_self f fs)
    have hrest := ih (i + 1) (fun g hg => h g (List.mem_cons_of_mem f hg)) hbad
    simp [validateFrom, hf, hrest, List.length_cons, List.range'_succ]

theorem validateFrom_shape (acc_ok : String → Bool) (total : Nat) (files : List String) :
    ∀ i : Nat, ∃ k, k ≤ files.length ∧
      (validateFrom acc_ok total i files).1 =
        (List.range' (i + 1) k).map (fun m => Event.progress (m * 20 / total)) ∧
      ((validateFrom acc_ok total i files).2 = none → k = files.length) := by
  induction files with
  | nil => intro i; exact ⟨0, by simp [validateFrom]⟩
  | cons f fs ih =>
    intro i
    by_cases hf : acc_ok f = true
    · obtain ⟨k, hk, hev, himp⟩ := ih (i + 1)
      refine ⟨k + 1, by simp; omega, ?_, ?_⟩
      · simp [validateFrom, hf, hev, List.range'_succ]
      · intro hnone
        have : (validateFrom acc_ok total (i + 1) fs).2 = none := by
          simpa [validateFrom, hf] using hnone
        simp [himp this]
    · have hf' : acc_ok f = false := Bool.of_not_eq_true hf
      refine ⟨0, by simp, ?_, ?_⟩
      · simp [validateFrom, hf']
      · intro hnone
        simp [validateFrom, hf'] at hnone

theorem loadFrom_ok (load_file : String → Except String Table) (total : Nat)
    (files : List String) :
    ∀ i : Nat, (∀ f ∈ files, (load_file f).isOk = true) →
    (loadFrom load_file total i files).1 =
      (List.range' (i + 1) files.length).map fun m => Event.progress (20 + m * 40 / total) := by
  induction files with
  | nil => intro i _; rfl
  | cons f fs ih =>
    intro i h
    have hf : (load_file f).isOk = true := h f (List.mem_cons_self f fs)
    obtain ⟨t, ht⟩ : ∃ t, load_file f = Except.ok t := by
      cases hlf : load_file f with
      | ok t => exact ⟨t, rfl⟩
      | error e => rw [hlf] at hf; exact absurd hf (by simp [Except.isOk, Except.toBool])
    have hrest := ih (i + 1) (fun g hg => h g (List.mem_cons_of_mem f hg))
    simp [loadFrom, ht, hrest, List.length_cons, List.range'_succ]

theorem loadFrom_shape (load_file : String → Except String Table) (total : Nat)
    (files : List String) :
    ∀ i : Nat, ∃ k, k ≤ files.length ∧
      (loadFrom load_file total i files).1 =
        (List.range' (i + 1) k).map (fun m => Event.progress (20 + m * 40 / total)) ∧
      (∀ ts, (loadFrom load_file total i files).2 = Except.ok ts → k = files.length) := by
  induction files with
  | nil => intro i; exact ⟨0, by simp [loadFrom]⟩
  | cons f fs ih =>
    intro i
    cases hlf : load_file f with
    | error e =>
      refine ⟨0, by simp, by simp [loadFrom, hlf], ?_⟩
      intro ts hts
      simp [loadFrom, hlf] at hts
    | ok t =>
      obtain ⟨k, hk, hev, himp⟩ := ih (i + 1)
      refine ⟨k + 1, by simp; omega, ?_, ?_⟩
      · simp [loadFrom, hlf, hev, List.range'_succ]
      · intro ts hts
        simp only [loadFrom, hlf] at hts
        cases hres : (loadFrom load_file total (i + 1) fs).2 with
        | error e => rw [hres] at hts; exact absurd hts (by simp [Except.map])
        | ok ts' => simp [himp ts' hres]

theorem band_le (m n c : Nat) (h : m ≤ n) (hn : 0 < n) : m * c / n ≤ c := by
  calc m * c / n ≤ n * c / n := Nat.div_le_div_right (Nat.mul_le_mul_right c h)
  _ = c := by rw [Nat.mul_comm]; exact Nat.mul_div_cancel c hn

theorem val_band_le (n m : Nat) (hm : m ∈ List.range' 1 n) : m * 20 / n ≤ 20 := by
  obtain ⟨h1, h2⟩ := List.mem_range'_1.mp hm
  exact band_le m n 20 (by omega) (by omega)

theorem load_band_le (n m : Nat) (hm : m ∈ List.range' 1 n) : 20 + m * 40 / n ≤ 60 := by
  obtain ⟨h1, h2⟩ := List.mem_range'_1.mp hm
  have := band_le m n 40 (by omega) (by omega)
  omega

theorem fullSchedule_sorted (n : Nat) : (fullSchedule n).Pairwise (· ≤ ·) := by
  unfold fullSchedule
  refine (List.pairwise_append).mpr ⟨(List.pairwise_append).mpr ⟨?_, ?_, ?_⟩, ?_, ?_⟩
  · exact List.pairwise_map.mpr ((range'_ascending 1 n).imp fun hab =>
      Nat.div_le_div_right (Nat.mul_le_mul_right 20 (Nat.le_of_lt hab)))
  · exact List.pairwise_map.mpr ((range'_ascending 1 n).imp fun hab =>
      Nat.add_le_add_left (Nat.div_le_div_right (Nat.mul_le_mul_right 40 (Nat.le_of_lt hab))) 20)
  · intro a ha b hb
    obtain ⟨m, hm, rfl⟩ := List.mem_map.mp ha
    obtain ⟨m', hm', rfl⟩ := List.mem_map.mp hb
    exact le_trans (val_band_le n m hm) (Nat.le_add_right 20 _)
  · decide
  · intro a ha b hb
    have ha' : a ≤ 60 := by
      rcases List.mem_append.mp ha with h | h
      · obtain ⟨m, hm, rfl⟩ := List.mem_map.mp h
        have := val_band_le n m hm; omega
      · obtain ⟨m, hm, rfl⟩ := List.mem_map.mp h
        exact load_band_le n m hm
    simp only [List.mem_cons, List.mem_singleton, List.not_mem_nil, or_false] at hb
    rcases hb with rfl | rfl | rfl <;> omega

theorem fullSchedule_le_100 (n : Nat) : ∀ x ∈ fullSchedule n, x ≤ 100 := by
  intro x hx
  unfold fullSchedule at hx
  rcases List.mem_append.mp hx with hx | hx
  · rcases List.mem_append.mp hx with hx | hx
    · obtain ⟨m, hm, rfl⟩ := List.mem_map.mp hx
      have := val_band_le n m hm; omega
    · obtain ⟨m, hm, rfl⟩ := List.mem_map.mp hx
      have := load_band_le n m hm; omega
  · simp only [List.mem_cons, List.mem_singleton, List.not_mem_nil, or_false] at hx
    rcases hx with rfl | rfl | rfl <;> omega

theorem fullSchedule_getLast (n : Nat) : (fullSchedule n).getLast? = some 100 := by
  have h : fullSchedule n =
      (((List.range' 1 n).map fun m => m * 20 / n) ++
        ((List.range' 1 n).map fun m => 20 + m * 40 / n) ++ [70, 85]) ++ [100] := by
    simp [fullSchedule, List.append_assoc]
  rw [h]
  exact List.getLast?_concat _

theorem range'_one_split (k n : Nat) (hk : k ≤ n) :
    List.range' 1 n = List.range' 1 k ++ List.range' (1 + k) (n - k) := by
  have h := range'_split 1 k (n - k)
  rw [Nat.add_sub_cancel' hk] at h
  exact h

theorem progressValues_nil : progressValues [] = [] := rfl

theorem progressValues_cons_progress (v : Nat) (evs : List Event) :
    progressValues (Event.progress v :: evs) = v :: progressValues evs := rfl

theorem progressValues_cons_complete (m : String) (evs : List Event) :
    progressValues (Event.complete m :: evs) = progressValues evs := rfl

theorem progressValues_cons_error (m : String) (evs : List Event) :
    progressValues (Event.error m :: evs) = progressValues evs := rfl

theorem val_band_initial_seg (n k : Nat) (hk : k ≤ n) :
    ∃ t, ((List.range' 1 k).map fun m => m * 20 / n) ++ t = fullSchedule n := by
  refine ⟨((List.range' (1 + k) (n - k)).map fun m => m * 20 / n) ++
      (((List.range' 1 n).map fun m => 20 + m * 40 / n) ++ [70, 85, 100]), ?_⟩
  simp only [fullSchedule]
  rw [range'_one_split k n hk]
  simp only [List.map_append, List.append_assoc]

theorem load_band_initial_seg (n k : Nat) (hk : k ≤ n) :
    ∃ t, (((List.range' 1 n).map fun m => m * 20 / n) ++
        ((List.range' 1 k).map fun m => 20 + m * 40 / n)) ++ t = fullSchedule n := by
  refine ⟨((List.range' (1 + k) (n - k)).map fun m => 20 + m * 40 / n) ++ [70, 85, 100], ?_⟩
  simp only [fullSchedule]
  rw [range'_one_split k n hk]
  simp only [List.map_append, List.append_assoc]

theorem run_eq_val_error (d : RunDeps) (files : List String) (sv : MetadataRecord)
    (out : String) (e : String)
    (hv : (validateFrom d.validate_file_accessibility files.length 0 files).2 = some e) :
    ProcessingThread.run d files sv out =
      (validateFrom d.validate_file_accessibility files.length 0 files).1 ++
        [Event.error ("Error during processing: " ++ e)] := by
  simp only [ProcessingThread.run, hv]

theorem run_eq_load_error (d : RunDeps) (files : List String) (sv : MetadataRecord)
    (out : String) (e : String)
    (hv : (validateFrom d.validate_file_accessibility files.length 0 files).2 = none)
    (hl : (loadFrom d.load_excel_file files.length 0 files).2 = Except.error e) :
    ProcessingThread.run d files sv out =
      (validateFrom d.validate_file_accessibility files.length 0 files).1 ++
        (loadFrom d.load_excel_file files.length 0 files).1 ++
        [Event.error ("Error during processing: " ++ e)] := by
  simp only [ProcessingThread.run, hv, hl]

theorem run_eq_process_error (d : RunDeps) (files : List String) (sv : MetadataRecord)
    (out : String) (ts : List Table) (e : String)
    (hv : (validateFrom d.validate_file_accessibility files.length 0 files).2 = none)
    (hl : (loadFrom d.load_excel_file files.length 0 files).2 = Except.ok ts)
    (hp : d.process_files ts sv = Except.error e) :
    ProcessingThread.run d files sv out =
      (validateFrom d.validate_file_accessibility files.length 0 files).1 ++
        (loadFrom d.load_excel_file files.length 0 files).1 ++
        [Event.progress 70, Event.error ("Error during processing: " ++ e)] := by
  simp only [ProcessingThread.run, hv, hl, hp]

theorem run_eq_save_error (d : RunDeps) (files : List String) (sv : MetadataRecord)
    (out : String) (ts : List Table) (pt : Table) (e : String)
    (hv : (validateFrom d.validate_file_accessibility files.length 0 files).2 = none)
    (hl : (loadFrom d.load_excel_file files.length 0 files).2 = Except.ok ts)
    (hp : d.process_files ts sv = Except.ok pt)
    (hs : d.save_excel_file pt out = Except.error e) :
    ProcessingThread.run d files sv out =
      (validateFrom d.validate_file_accessibility files.length 0 files).1 ++
        (loadFrom d.load_excel_file files.length 0 files).1 ++
        [Event.progress 70, Event.progress 85,
          Event.error ("Error during processing: " ++ e)] := by
  simp only [ProcessingThread.run, hv, hl, hp, hs]

theorem run_eq_ok (d : RunDeps) (files : List String) (sv : MetadataRecord)
    (out : String) (ts : List Table) (pt : Table) (u : Unit)
    (hv : (validateFrom d.validate_file_accessibility files.length 0 files).2 = none)
    (hl : (loadFrom d.load_excel_file files.length 0 files).2 = Except.ok ts)
    (hp : d.process_files ts sv = Except.ok pt)
    (hs : d.save_excel_file pt out = Except.ok u) :
    ProcessingThread.run d files sv out =
      (validateFrom d.validate_file_accessibility files.length 0 files).1 ++
        (loadFrom d.load_excel_file files.length 0 files).1 ++
        [Event.progress 70, Event.progress 85, Event.progress 100,
          Event.complete ("Successfully processed " ++ toString files.length ++
            " files and saved to " ++ basename out ++ "!")] := by
  simp only [ProcessingThread.run, hv, hl, hp, hs]

theorem sched_decomp (n : Nat) (done t2 : List Nat) (h : done ++ t2 = [70, 85, 100]) :
    ((((List.range' 1 n).map fun m => m * 20 / n) ++
        ((List.range' 1 n).map fun m => 20 + m * 40 / n)) ++ done) ++ t2 = fullSchedule n := by
  simp only [fullSchedule]
  rw [← h]
  simp only [List.append_assoc]

theorem run_progress_spec (d : RunDeps) (files : List String) (sv : MetadataRecord)
    (out : String) :
    (∃ t, progressValues (ProcessingThread.run d files sv out) ++ t = fullSchedule files.length) ∧
    (∀ msg, (ProcessingThread.run d files sv out).getLast? = some (Event.complete msg) →
      progressValues (ProcessingThread.run d files sv out) = fullSchedule files.length) := by
  obtain ⟨k₁, hk₁, hev₁, himp₁⟩ :=
    validateFrom_shape d.validate_file_accessibility files.length files 0
  cases hv : (validateFrom d.validate_file_accessibility files.length 0 files).2 with
  | some e =>
    have hrun := run_eq_val_error d files sv out e hv
    constructor
    · rw [hrun, progressValues_append, hev₁, progressValues_progress_map,
        progressValues_cons_error, progressValues_nil, List.append_nil]
      exact val_band_initial_seg files.length k₁ hk₁
    · intro msg hmsg
      rw [hrun, List.getLast?_concat] at hmsg
      simp at hmsg
  | none =>
    have hkn : k₁ = files.length := himp₁ hv
    subst hkn
    obtain ⟨k₂, hk₂, hev₂, himp₂⟩ := loadFrom_shape d.load_excel_file files.length files 0
    cases hl : (loadFrom d.load_excel_file files.length 0 files).2 with
    | error e =>
      have hrun := run_eq_load_error d files sv out e hv hl
      constructor
      · rw [hrun, progressValues_append, progressValues_append, hev₁, hev₂,
          progressValues_progress_map, progressValues_progress_map,
          progressValues_cons_error, progressValues_nil, List.append_nil]
        exact load_band_initial_seg files.length k₂ hk₂
      · intro msg hmsg
        rw [hrun, List.getLast?_concat] at hmsg
        simp at hmsg
    | ok ts =>
      have hk₂n : k₂ = files.length := himp₂ ts hl
      subst hk₂n
      cases hp : d.process_files ts sv with
      | error e =>
        have hrun := run_eq_process_error d files sv out ts e hv hl hp
        constructor
        · rw [hrun, progressValues_append, progressValues_append, hev₁, hev₂,
            progressValues_progress_map, progressValues_progress_map,
            progressValues_cons_progress, progressValues_cons_error, progressValues_nil]
          exact ⟨[85, 100], sched_decomp files.length [70] [85, 100] rfl⟩
        · intro msg hmsg
          rw [hrun, List.getLast?_append_cons] at hmsg
          simp at hmsg
      | ok pt =>
        cases hs : d.save_excel_file pt out with
        | error e =>
          have hrun := run_eq_save_error d files sv out ts pt e hv hl hp hs
          constructor
          · rw [hrun, progressValues_append, progressValues_append, hev₁, hev₂,
              progressValues_progress_map, progressValues_progress_map,
              progressValues_cons_progress, progressValues_cons_progress,
              progressValues_cons_error, progressValues_nil]
            exact ⟨[100], sched_decomp files.length [70, 85] [100] rfl⟩
          · intro msg hmsg
            rw [hrun, List.getLast?_append_cons] at hmsg
            simp at hmsg
        | ok u =>
          have hrun := run_eq_ok d files sv out ts pt u hv hl hp hs
          have hpv : progressValues (ProcessingThread.run d files sv out) =
              ((((List.range' 1 files.length).map fun m => m * 20 / files.length) ++
                ((List.range' 1 files.length).map fun m => 20 + m * 40 / files.length)) ++
                [70, 85, 100]) := by
            rw [hrun, progressValues_append, progressValues_append, hev₁, hev₂,
              progressValues_progress_map, progressValues_progress_map,
              progressValues_cons_progress, progressValues_cons_progress,
              progressValues_cons_progress, progressValues_cons_complete, progressValues_nil]
          have hfull : ((((List.range' 1 files.length).map fun m => m * 20 / files.length) ++
              ((List.range' 1 files.length).map fun m => 20 + m * 40 / files.length)) ++
              [70, 85, 100]) = fullSchedule files.length := by
            have h := sched_decomp files.length [70, 85, 100] [] (List.append_nil _)
            rwa [List.append_nil] at h
          exact ⟨⟨[], by rw [hpv, hfull, List.append_nil]⟩, fun msg _ => by rw [hpv, hfull]⟩

/-! Claim theorems. -/

/-- C1: for every run over n >= 1 input files, the progress values are emitted in the
fixed phase bands in order: the validation band `(i + 1) * 20 / n`, the loading band
`20 + (i + 1) * 40 / n`, the fixed merge jumps 70 and 85, and 100 at the end of the
saving phase.  Formally: whatever the collaborators do, the emitted progress values are
an initial segment of fullSchedule n, and a run whose final event is the success
notification emits exactly fullSchedule n. -/
theorem run_progress_phase_bands (d : RunDeps) (files : List String) (sv : MetadataRecord)
    (out : String) (_hn : 1 ≤ files.length) :
    (∃ t, progressValues (ProcessingThread.run d files sv out) ++ t = fullSchedule files.length) ∧
    (∀ msg, (ProcessingThread.run d files sv out).getLast? = some (Event.complete msg) →
      progressValues (ProcessingThread.run d files sv out) = fullSchedule files.length) :=
  run_progress_spec d files sv out

/-- Witness for C1 at a concrete successful one-file run. -/
theorem run_progress_phase_bands_witness :
    (∃ t, progressValues (ProcessingThread.run okDeps ["a"] md0 "o") ++ t = fullSchedule 1) ∧
    progressValues (ProcessingThread.run okDeps ["a"] md0 "o") = fullSchedule 1 :=
  ⟨(run_progress_phase_bands okDeps ["a"] md0 "o" (by decide)).1,
    (run_progress_phase_bands okDeps ["a"] md0 "o" (by decide)).2
      "Successfully processed 1 files and saved to o!" (by decide)⟩

/-- C2: for every run the emitted progress values are non-decreasing, and a run whose
final event is the success notification has 100 as its last progress value. -/
theorem run_progress_monotone (d : RunDeps) (files : List String) (sv : MetadataRecord)
    (out : String) :
    (progressValues (ProcessingThread.run d files sv out)).Pairwise (· ≤ ·) ∧
    (∀ msg, (ProcessingThread.run d files sv out).getLast? = some (Event.complete msg) →
      (progressValues (ProcessingThread.run d files sv out)).getLast? = some 100) := by
  obtain ⟨⟨t, ht⟩, hsucc⟩ := run_progress_spec d files sv out
  constructor
  · have hsub : (progressValues (ProcessingThread.run d files sv out)).Sublist
        (fullSchedule files.length) := by
      rw [← ht]; exact List.sublist_append_left _ t
    exact (fullSchedule_sorted files.length).sublist hsub
  · intro msg hmsg
    rw [hsucc msg hmsg]
    exact fullSchedule_getLast files.length

/-- Witness for C2 at a concrete successful one-file run. -/
theorem run_progress_monotone_witness :
    (progressValues (ProcessingThread.run okDeps ["a"] md0 "o")).Pairwise (· ≤ ·) ∧
    (progressValues (ProcessingThread.run okDeps ["a"] md0 "o")).getLast? = some 100 :=
  ⟨(run_progress_monotone okDeps ["a"] md0 "o").1,
    (run_progress_monotone okDeps ["a"] md0 "o").2
      "Successfully processed 1 files and saved to o!" (by decide)⟩

/-- Events of a progress band are never terminal. -/
theorem mem_progress_map_nonterminal (a k : Nat) (g : Nat → Nat) (e : Event)
    (he : e ∈ (List.range' a k).map fun m => Event.progress (g m)) : e.isTerminal = false := by
  obtain ⟨m, _, rfl⟩ := List.mem_map.mp he
  rfl

/-- C3: every run's event list consists of zero or more progress notifications followed
by exactly one terminal outcome (success or error) as its final event. -/
theorem run_single_terminal_outcome (d : RunDeps) (files : List String) (sv : MetadataRecord)
    (out : String) :
    ∃ evs term, ProcessingThread.run d files sv out = evs ++ [term] ∧
      term.isTerminal = true ∧ ∀ e ∈ evs, e.isTerminal = false := by
  obtain ⟨k₁, hk₁, hev₁, himp₁⟩ :=
    validateFrom_shape d.validate_file_accessibility files.length files 0
  cases hv : (validateFrom d.validate_file_accessibility files.length 0 files).2 with
  | some e =>
    refine ⟨(validateFrom d.validate_file_accessibility files.length 0 files).1, _,
      run_eq_val_error d files sv out e hv, rfl, ?_⟩
    intro x hx
    rw [hev₁] at hx
    exact mem_progress_map_nonterminal _ _ _ x hx
  | none =>
    obtain ⟨k₂, hk₂, hev₂, himp₂⟩ := loadFrom_shape d.load_excel_file files.length files 0
    have hnt : ∀ x, x ∈ (validateFrom d.validate_file_accessibility files.length 0 files).1 ++
        (loadFrom d.load_excel_file files.length 0 files).1 → x.isTerminal = false := by
      intro x hx
      rcases List.mem_append.mp hx with hx | hx
      · rw [hev₁] at hx; exact mem_progress_map_nonterminal _ _ _ x hx
      · rw [hev₂] at hx; exact mem_progress_map_nonterminal _ _ _ x hx
    cases hl : (loadFrom d.load_excel_file files.length 0 files).2 with
    | error e =>
      exact ⟨_, _, run_eq_load_error d files sv out e hv hl, rfl, hnt⟩
    | ok ts =>
      cases hp : d.process_files ts sv with
      | error e =>
        have hrun := run_eq_process_error d files sv out ts e hv hl hp
        refine ⟨(validateFrom d.validate_file_accessibility files.length 0 files).1 ++
            (loadFrom d.load_excel_file files.length 0 files).1 ++ [Event.progress 70],
          Event.error ("Error during processing: " ++ e),
          by rw [hrun]; simp [List.append_assoc], rfl, ?_⟩
        intro x hx
        rcases List.mem_append.mp hx with hx | hx
        · exact hnt x hx
        · simp only [List.mem_singleton] at hx; subst hx; rfl
      | ok pt =>
        cases hs : d.save_excel_file pt out with
        | error e =>
          have hrun := run_eq_save_error d files sv out ts pt e hv hl hp hs
          refine ⟨(validateFrom d.validate_file_accessibility files.length 0 files).1 ++
              (loadFrom d.load_excel_file files.length 0 files).1 ++
              [Event.progress 70, Event.progress 85],
            Event.error ("Error during processing: " ++ e),
            by rw [hrun]; simp [List.append_assoc], rfl, ?_⟩
          intro x hx
          rcases List.mem_append.mp hx with hx | hx
          · exact hnt x hx
          · simp only [List.mem_cons, List.mem_singleton, List.not_mem_nil, or_false] at hx
            rcases hx with rfl | rfl <;> rfl
        | ok u =>
          have hrun := run_eq_ok d files sv out ts pt u hv hl hp hs
          refine ⟨(validateFrom d.validate_file_accessibility files.length 0 files).1 ++
              (loadFrom d.load_excel_file files.length 0 files).1 ++
              [Event.progress 70, Event.progress 85, Event.progress 100],
            Event.complete ("Successfully processed " ++ toString files.length ++
              " files and saved to " ++ basename out ++ "!"),
            by rw [hrun]; simp [List.append_assoc], rfl, ?_⟩
          intro x hx
          rcases List.mem_append.mp hx with hx | hx
          · exact hnt x hx
          · simp only [List.mem_cons, List.mem_singleton, List.not_mem_nil, or_false] at hx
            rcases hx with rfl | rfl | rfl <;> rfl

/-- Witness for C3 at a concrete successful one-file run. -/
theorem run_single_terminal_outcome_witness :
    ∃ evs term, ProcessingThread.run okDeps ["a"] md0 "o" = evs ++ [term] ∧
      term.isTerminal = true ∧ ∀ e ∈ evs, e.isTerminal = false :=
  run_single_terminal_outcome okDeps ["a"] md0 "o"

/-- C10: every emitted progress value is a natural number bounded by 100 (so an integer
in 0-100), and the phase-band formulas hit the band endpoints exactly: a validation
loop that checks all n >= 1 files ends by emitting exactly 20, and a loading loop that
loads all n files ends by emitting exactly 60, whatever n is. -/
theorem progress_band_endpoints (d : RunDeps) (files : List String) (sv : MetadataRecord)
    (out : String) (hn : 1 ≤ files.length) :
    (∀ x ∈ progressValues (ProcessingThread.run d files sv out), x ≤ 100) ∧
    ((∀ f ∈ files, d.validate_file_accessibility f = true) →
      (validateFrom d.validate_file_accessibility files.length 0 files).1.getLast? =
        some (Event.progress 20)) ∧
    ((∀ f ∈ files, (d.load_excel_file f).isOk = true) →
      (loadFrom d.load_excel_file files.length 0 files).1.getLast? =
        some (Event.progress 60)) := by
  obtain ⟨n', hn'⟩ : ∃ n', files.length = n' + 1 := ⟨files.length - 1, by omega⟩
  have hdiv : (1 + n') * 20 / (n' + 1) = 20 := by
    rw [Nat.add_comm 1 n', Nat.mul_comm]
    exact Nat.mul_div_cancel 20 (Nat.succ_pos n')
  have hdiv40 : (1 + n') * 40 / (n' + 1) = 40 := by
    rw [Nat.add_comm 1 n', Nat.mul_comm]
    exact Nat.mul_div_cancel 40 (Nat.succ_pos n')
  refine ⟨?_, ?_, ?_⟩
  · intro x hx
    obtain ⟨⟨t, ht⟩, _⟩ := run_progress_spec d files sv out
    have hx' : x ∈ fullSchedule files.length := by
      rw [← ht]
      exact List.mem_append.mpr (Or.inl hx)
    exact fullSchedule_le_100 files.length x hx'
  · intro hacc
    have h := validateFrom_ok d.validate_file_accessibility files.length files 0 hacc
    rw [h]
    rw [hn', List.range'_1_concat, List.map_append]
    simp only [List.map_cons, List.map_nil]
    rw [List.getLast?_concat, hn'] at *
    rw [hdiv]
  · intro hload
    have h := loadFrom_ok d.load_excel_file files.length files 0 hload
    rw [h]
    rw [hn', List.range'_1_concat, List.map_append]
    simp only [List.map_cons, List.map_nil]
    rw [List.getLast?_concat, hn'] at *
    rw [hdiv40]

/-- Witness for C10 at a concrete successful one-file run. -/
theorem progress_band_endpoints_witness :
    (∀ x ∈ progressValues (ProcessingThread.run okDeps ["a"] md0 "o"), x ≤ 100) ∧
    (validateFrom okDeps.validate_file_accessibility 1 0 ["a"]).1.getLast? =
      some (Event.progress 20) ∧
    (loadFrom okDeps.load_excel_file 1 0 ["a"]).1.getLast? = some (Event.progress 60) :=
  ⟨(progress_band_endpoints okDeps ["a"] md0 "o" (by decide)).1,
    (progress_band_endpoints okDeps ["a"] md0 "o" (by decide)).2.1 (by decide),
    (progress_band_endpoints okDeps ["a"] md0 "o" (by decide)).2.2 (by decide)⟩

/-- C4, as stated, is false: the claim says the Validating phase also checks
is_valid_excel_file and aborts when a file fails it, but ProcessingThread.run's
validation loop (lines 243-253) calls only validate_file_accessibility.  Concretely,
with collaborators under which "a.xlsx" fails the spreadsheet-format check but is
accessible and loadable, the run still ends in the success notification instead of
aborting with an error. -/
theorem validating_ignores_spreadsheet_check :
    ¬ (∀ (d : RunDeps) (files : List String) (sv : MetadataRecord) (out : String) (f : String),
        f ∈ files → d.is_valid_excel_file f = false →
        ∃ evs e, ProcessingThread.run d files sv out = evs ++ [Event.error e]) := by
  intro h
  obtain ⟨evs, e, heq⟩ :=
    h cexDeps ["a.xlsx"] md0 "o.xlsx" "a.xlsx" (by decide) (by decide)
  have hlast : (ProcessingThread.run cexDeps ["a.xlsx"] md0 "o.xlsx").getLast? =
      some (Event.complete "Successfully processed 1 files and saved to o.xlsx!") := by
    decide
  rw [heq, List.getLast?_concat] at hlast
  simp at hlast

/-- C4 amended: during the Validating phase each input file in order is checked for
accessibility only (validate_file_accessibility); the first file failing that check
aborts the run with the error outcome, and no file after it is checked — the run's
events do not depend on the collaborators' behaviour on the files after the failing
one.  (The spreadsheet-format check is applied by the caller when files are selected,
not by the run's validation loop.) -/
theorem validating_checks_accessibility_only (d : RunDeps) (pre : List String) (bad : String)
    (post : List String) (sv : MetadataRecord) (out : String)
    (hpre : ∀ f ∈ pre, d.validate_file_accessibility f = true)
    (hbad : d.validate_file_accessibility bad = false) :
    ProcessingThread.run d (pre ++ bad :: post) sv out =
      ((List.range' 1 pre.length).map fun m =>
        Event.progress (m * 20 / (pre ++ bad :: post).length)) ++
      [Event.error ("Error during processing: " ++ ("Cannot access file: " ++ bad))] := by
  have hv := validateFrom_fail d.validate_file_accessibility (pre ++ bad :: post).length
    pre bad post 0 hpre hbad
  have hrun := run_eq_val_error d (pre ++ bad :: post) sv out
    ("Cannot access file: " ++ bad) (by rw [hv])
  rw [hrun, hv]

/-- Witness for the amended C4: with only `good` accessible, the run over
[good, bad, later] emits the validation progress for `good` and then the error for
`bad`; the file `later` is never reached. -/
theorem validating_checks_accessibility_only_witness :
    ProcessingThread.run failDeps (["good"] ++ "bad" :: ["later"]) md0 "o" =
      ((List.range' 1 (List.length ["good"])).map fun m =>
        Event.progress (m * 20 / (["good"] ++ "bad" :: ["later"]).length)) ++
      [Event.error ("Error during processing: " ++ ("Cannot access file: " ++ "bad"))] :=
  validating_checks_accessibility_only failDeps ["good"] "bad" ["later"] md0 "o"
    (by decide) (by decide)

/-- C5: a run supplied an empty input file list is rejected by MainWindow.process_files
before the background thread ever starts: no phase runs, no events are emitted (so
nothing is saved and the output file is not created or modified), and the rejection is
classified under the spec's ValidationError kind. -/
theorem empty_input_rejected (d : RunDeps) (fields : MetadataRecord) (out : String) :
    MainWindow.process_files d [] fields out = StartResult.rejectedNoFiles ∧
    (MainWindow.process_files d [] fields out).events = none ∧
    (MainWindow.process_files d [] fields out).errorKind = some ErrorKind.ValidationError := by
  refine ⟨rfl, ?_, ?_⟩ <;> rfl

/-! Merge-engine lemmas. -/

theorem merge_rows_foldl_len (dataCols : List String) (md : MetadataRecord) :
    ∀ (tables : List Table) (acc : List Row),
      (tables.foldl (fun acc t => acc ++ t.rows.map (mergedRow dataCols md)) acc).length =
        acc.length + (tables.map fun t => t.rows.length).sum := by
  intro tables
  induction tables with
  | nil => intro acc; simp
  | cons t ts ih =>
    intro acc
    rw [List.foldl_cons, ih]
    simp [List.length_append, List.length_map]
    omega

/-- C7: the merge is append-only on rows: the merged table has exactly as many rows as
all the input tables together, with none created and none dropped. -/
theorem merge_preserves_row_count (tables : List Table) (md : MetadataRecord) :
    (merge tables md).rows.length = (tables.map fun t => t.rows.length).sum := by
  have h := merge_rows_foldl_len (unionHeader tables) md tables []
  simpa [merge] using h

theorem unionHeader_foldl_concat :
    ∀ (tables : List Table) (acc : List String),
      tables.foldl (fun a t => addCols a t.header) acc =
        (concatHeaders tables).foldl unionStep acc := by
  intro tables
  induction tables with
  | nil => intro acc; rfl
  | cons t ts ih =>
    intro acc
    simp only [concatHeaders, List.foldl_cons, List.foldl_append]
    exact ih (addCols acc t.header)

theorem foldl_unionStep_dedup :
    ∀ (L : List String) (acc : List String),
      L.foldl unionStep acc = acc ++ dedupFrom acc L := by
  intro L
  induction L with
  | nil => intro acc; simp [dedupFrom]
  | cons c cs ih =>
    intro acc
    by_cases hm : ciMem acc c = true
    · simp only [List.foldl_cons, unionStep, hm, if_true, dedupFrom]
      exact ih acc
    · have hm' : ciMem acc c = false := Bool.of_not_eq_true hm
      simp only [List.foldl_cons, unionStep, hm', Bool.false_eq_true, if_false, dedupFrom]
      rw [ih (acc ++ [c])]
      simp [List.append_assoc]

theorem ciMem_append_false (seen : List String) (c d : String)
    (h : ciMem (seen ++ [c]) d = false) :
    ciMem seen d = false ∧ (lowerStr c == lowerStr d) = false := by
  simp only [ciMem, List.any_append, Bool.or_eq_false_iff, List.any_cons, List.any_nil,
    Bool.or_false] at h
  exact ⟨h.1, h.2⟩

theorem findCI_cons_ne (c : String) (cs : List String) (k : String)
    (h : (lowerStr c == k) = false) : findCI (c :: cs) k = findCI cs k := by
  simp [findCI, List.find?_cons, h]

theorem findCI_cons_self (c : String) (cs : List String) :
    findCI (c :: cs) (lowerStr c) = some c := by
  simp [findCI, List.find?_cons]

theorem dedupFrom_mem_spec :
    ∀ (L : List String) (seen : List String) (d : String), d ∈ dedupFrom seen L →
      ciMem seen d = false ∧ findCI L (lowerStr d) = some d := by
  intro L
  induction L with
  | nil => intro seen d hd; simp [dedupFrom] at hd
  | cons c cs ih =>
    intro seen d hd
    by_cases hm : ciMem seen c = true
    · rw [dedupFrom, if_pos hm] at hd
      obtain ⟨h1, h2⟩ := ih seen d hd
      have hne : (lowerStr c == lowerStr d) = false := by
        cases hbe : (lowerStr c == lowerStr d) with
        | false => rfl
        | true =>
          have heq : lowerStr c = lowerStr d := beq_iff_eq.mp hbe
          have hcd' : ciMem seen d = true := by
            show (seen.any fun x => lowerStr x == lowerStr d) = true
            rw [← heq]
            exact hm
          rw [hcd'] at h1
          exact absurd h1 (by simp)
      refine ⟨h1, ?_⟩
      rw [findCI_cons_ne c cs (lowerStr d) hne]
      exact h2
    · have hm' : ciMem seen c = false := Bool.of_not_eq_true hm
      rw [dedupFrom, if_neg hm] at hd
      rcases List.mem_cons.mp hd with rfl | hd'
      · refine ⟨hm', ?_⟩
        exact findCI_cons_self d cs
      · obtain ⟨h1, h2⟩ := ih (seen ++ [c]) d hd'
        obtain ⟨h1a, h1b⟩ := ciMem_append_false seen c d h1
        refine ⟨h1a, ?_⟩
        rw [findCI_cons_ne c cs (lowerStr d) h1b]
        exact h2

theorem dedupFrom_covers :
    ∀ (L : List String) (seen : List String) (c : String), c ∈ L →
      (∃ d ∈ seen, lowerStr d = lowerStr c) ∨
        ∃ d ∈ dedupFrom seen L, lowerStr d = lowerStr c := by
  intro L
  induction L with
  | nil => intro seen c hc; simp at hc
  | cons a cs ih =>
    intro seen c hc
    rcases List.mem_cons.mp hc with rfl | hc'
    · by_cases hm : ciMem seen c = true
      · left
        obtain ⟨x, hx, hbx⟩ := List.any_eq_true.mp hm
        exact ⟨x, hx, beq_iff_eq.mp hbx⟩
      · right
        have hm' : ciMem seen c = false := Bool.of_not_eq_true hm
        rw [dedupFrom, if_neg hm]
        exact ⟨c, List.mem_cons_self c _, rfl⟩
    · by_cases hm : ciMem seen a = true
      · rw [dedupFrom, if_pos hm]
        exact ih seen c hc'
      · rw [dedupFrom, if_neg hm]
        rcases ih (seen ++ [a]) c hc' with ⟨d, hd, hld⟩ | ⟨d, hd, hld⟩
        · rcases List.mem_append.mp hd with hd | hd
          · exact Or.inl ⟨d, hd, hld⟩
          · right
            refine ⟨a, List.mem_cons_self a _, ?_⟩
            simp only [List.mem_singleton] at hd
            subst hd
            exact hld
        · exact Or.inr ⟨d, List.mem_cons_of_mem a hd, hld⟩

theorem dedupFrom_nodup :
    ∀ (L : List String) (seen : List String), ((seen.map lowerStr).Nodup) →
      (((seen ++ dedupFrom seen L).map lowerStr).Nodup) := by
  intro L
  induction L with
  | nil => intro seen hs; simpa [dedupFrom] using hs
  | cons c cs ih =>
    intro seen hs
    by_cases hm : ciMem seen c = true
    · rw [dedupFrom, if_pos hm]
      exact ih seen hs
    · have hnotin : lowerStr c ∉ seen.map lowerStr := by
        intro hmem
        obtain ⟨x, hx, hlx⟩ := List.mem_map.mp hmem
        have : ciMem seen c = true :=
          List.any_eq_true.mpr ⟨x, hx, beq_iff_eq.mpr hlx⟩
        exact hm this
      have hs' : ((seen ++ [c]).map lowerStr).Nodup := by
        rw [List.map_append]
        rw [List.nodup_append]
        exact ⟨hs, List.nodup_singleton _, by
          intro x hx hx'
          simp only [List.map_cons, List.map_nil, List.mem_singleton] at hx'
          subst hx'
          exact hnotin hx⟩
      have h := ih (seen ++ [c]) hs'
      rw [dedupFrom, if_neg hm]
      have hshape : seen ++ [c] ++ dedupFrom (seen ++ [c]) cs =
          seen ++ c :: dedupFrom (seen ++ [c]) cs := by
        simp [List.append_assoc]
      rwa [hshape] at h

theorem mem_concatHeaders :
    ∀ (tables : List Table) (t : Table), t ∈ tables → ∀ c ∈ t.header,
      c ∈ concatHeaders tables := by
  intro tables
  induction tables with
  | nil => intro t ht; simp at ht
  | cons t' ts ih =>
    intro t ht c hc
    rcases List.mem_cons.mp ht with rfl | ht'
    · exact List.mem_append.mpr (Or.inl hc)
    · exact List.mem_append.mpr (Or.inr (ih t ht' c hc))

theorem unionHeader_eq_dedup (tables : List Table) :
    unionHeader tables = dedupFrom [] (concatHeaders tables) := by
  rw [unionHeader, unionHeader_foldl_concat tables [], foldl_unionStep_dedup]
  rfl

/-- C8: the merged header is the case-insensitive union of the source headers in input
order followed by exactly the five metadata keys in their fixed order.  The union part
equals the first-seen walk dedupFrom [] over the concatenated source headers; every
source column is represented in it up to case; it holds no two names equal up to case;
and each of its entries is the first occurrence, in traversal order, of its lower-cased
name — so the first-seen casing is retained.  The header is a pure function of the
table list, hence deterministic for a fixed input order. -/
theorem merge_header_union (tables : List Table) (md : MetadataRecord) :
    (merge tables md).header = unionHeader tables ++ metadataKeys ∧
    metadataKeys = ["project_name", "department", "analyst", "report_date", "version"] ∧
    unionHeader tables = dedupFrom [] (concatHeaders tables) ∧
    (∀ t ∈ tables, ∀ c ∈ t.header, ∃ d ∈ unionHeader tables, lowerStr d = lowerStr c) ∧
    ((unionHeader tables).map lowerStr).Nodup ∧
    (∀ d ∈ unionHeader tables, findCI (concatHeaders tables) (lowerStr d) = some d) := by
  refine ⟨rfl, rfl, unionHeader_eq_dedup tables, ?_, ?_, ?_⟩
  · intro t ht c hc
    have hcc := mem_concatHeaders tables t ht c hc
    rcases dedupFrom_covers (concatHeaders tables) [] c hcc with ⟨d, hd, _⟩ | ⟨d, hd, hld⟩
    · simp at hd
    · exact ⟨d, by rw [unionHeader_eq_dedup tables]; exact hd, hld⟩
  · have h := dedupFrom_nodup (concatHeaders tables) [] (by simp)
    rw [unionHeader_eq_dedup tables]
    simpa using h
  · intro d hd
    rw [unionHeader_eq_dedup tables] at hd
    exact (dedupFrom_mem_spec (concatHeaders tables) [] d hd).2

/-- Witness for C8 at two concrete tables whose first columns differ only in case:
`name` of t1 is represented by the retained first-seen casing `Name`, and `Region` is
its own first occurrence. -/
theorem merge_header_union_witness :
    (∃ d ∈ unionHeader [t0, t1], lowerStr d = lowerStr "name") ∧
    findCI (concatHeaders [t0, t1]) (lowerStr "Region") = some "Region" :=
  ⟨(merge_header_union [t0, t1] md0).2.2.2.1 t1 (by decide) "name" (by decide),
    (merge_header_union [t0, t1] md0).2.2.2.2.2 "Region" (by decide)⟩

theorem field_errs_nil (k v : String) :
    ((if trimStr v = "" then [k ++ ": empty"] else []) = [] ∧
      (if max_field_length < (trimStr v).length then [k ++ ": too long"] else []) = []) ↔
    (trimStr v ≠ "" ∧ (trimStr v).length ≤ max_field_length) := by
  by_cases h1 : trimStr v = "" <;> by_cases h2 : max_field_length < (trimStr v).length <;>
    simp [h1, h2] <;> omega

/-- C6: metadata validation is exhaustive, not fail-fast: the violation list is empty
exactly when every one of the five fields is non-blank after trimming and within the
length bound; every blank field contributes its `empty` message and every over-long
field its `too long` message; and a non-empty violation list makes
MainWindow.process_files reject the run before the background thread starts, so no
phase runs. -/
theorem metadata_validation_exhaustive (sv fields : MetadataRecord) (d : RunDeps)
    (files : List String) (out : String) :
    (validate_string_inputs sv = [] ↔
      ∀ v ∈ sv.values, trimStr v ≠ "" ∧ (trimStr v).length ≤ max_field_length) ∧
    (∀ kv ∈ metadataKeys.zip sv.values, trimStr kv.2 = "" →
      (kv.1 ++ ": empty") ∈ validate_string_inputs sv) ∧
    (∀ kv ∈ metadataKeys.zip sv.values, max_field_length < (trimStr kv.2).length →
      (kv.1 ++ ": too long") ∈ validate_string_inputs sv) ∧
    (files ≠ [] → out ≠ "" →
      validate_string_inputs (MainWindow.get_string_values fields) ≠ [] →
      MainWindow.process_files d files fields out =
        StartResult.rejectedInvalidMetadata
          (validate_string_inputs (MainWindow.get_string_values fields)) ∧
      (MainWindow.process_files d files fields out).events = none) := by
  refine ⟨?_, ?_, ?_, ?_⟩
  · simp only [validate_string_inputs, metadataKeys, MetadataRecord.values,
      List.zip_cons_cons, List.zip_nil_right, List.flatMap_cons, List.flatMap_nil,
      List.append_nil, List.append_eq_nil, field_errs_nil, List.forall_mem_cons,
      List.not_mem_nil, false_implies, forall_const, and_true]
  · intro kv hkv hblank
    simp only [metadataKeys, MetadataRecord.values, List.zip_cons_cons,
      List.zip_nil_right] at hkv
    fin_cases hkv <;>
      simp_all [validate_string_inputs, metadataKeys, MetadataRecord.values,
        List.mem_append]
  · intro kv hkv hlong
    simp only [metadataKeys, MetadataRecord.values, List.zip_cons_cons,
      List.zip_nil_right] at hkv
    fin_cases hkv <;>
      simp_all [validate_string_inputs, metadataKeys, MetadataRecord.values,
        List.mem_append]
  · intro hfiles hout hverr
    have h1 : files.isEmpty = false := by
      cases files with
      | nil => exact absurd rfl hfiles
      | cons a l => rfl
    have h2 : (validate_string_inputs (MainWindow.get_string_values fields)).isEmpty
        = false := by
      cases hv : validate_string_inputs (MainWindow.get_string_values fields) with
      | nil => exact absurd hv hverr
      | cons a l => rfl
    constructor <;> simp [MainWindow.process_files, h1, h2, hout, StartResult.events]

/-- Witness for C6 at a concrete record with a blank project name and an over-long
version: both violations are reported together and the run is rejected before any
phase. -/
theorem metadata_validation_exhaustive_witness :
    ("project_name" ++ ": empty") ∈ validate_string_inputs mdBad ∧
    ("version" ++ ": too long") ∈ validate_string_inputs mdBad ∧
    MainWindow.process_files okDeps ["a"] mdBad "o" =
      StartResult.rejectedInvalidMetadata
        (validate_string_inputs (MainWindow.get_string_values mdBad)) :=
  ⟨(metadata_validation_exhaustive mdBad mdBad okDeps ["a"] "o").2.1
      ("project_name", " ") (by decide) (by decide),
    (metadata_validation_exhaustive mdBad mdBad okDeps ["a"] "o").2.2.1
      ("version", String.mk (List.replicate 257 'x')) (by decide) (by decide),
    ((metadata_validation_exhaustive mdBad mdBad okDeps ["a"] "o").2.2.2
      (by decide) (by decide) (by decide)).1⟩

/-! File-system lemmas for the atomic-save model. -/

theorem FS.get_set (fs : FS) (p v q : String) :
    (fs.set p v).get q = if q = p then some v else fs.get q := by
  by_cases h : q = p
  · subst h
    simp [FS.get, FS.set, List.find?_cons]
  · have hb : (p == q) = false := by
      simp only [beq_eq_false_iff_ne, ne_eq]
      exact fun he => h he.symm
    simp [FS.get, FS.set, List.find?_cons, hb, h]

theorem FS.get_remove_self (fs : FS) (p : String) : (fs.remove p).get p = none := by
  have h : List.find? (fun q => q.1 == p) (fs.files.filter fun q => q.1 != p) = none := by
    rw [List.find?_eq_none]
    intro x hx
    have hne := (List.mem_filter.mp hx).2
    simp only [bne_iff_ne, ne_eq] at hne
    simp [hne]
  simp [FS.get, FS.remove, h]

theorem tmpPath_ne (p : String) : tmpPath p ≠ p := by
  intro h
  have hl := congrArg String.length h
  rw [tmpPath, String.length_append] at hl
  have h4 : String.length ".tmp" = 4 := by decide
  omega

/-- C9: the save first writes the serialized table to a temporary sibling path and then
atomically renames it over the destination: the save reports a WriteError exactly when
the temporary write or the rename fails, the destination file is untouched whenever the
save fails, and on success the destination holds exactly the serialized table and the
temporary file is gone — the destination is never left half-written. -/
theorem save_atomic (serialize : Table → String) (write_ok rename_ok : Bool) (fs : FS)
    (t : Table) (path : String) :
    ((write_ok = false ∨ rename_ok = false) ↔
      (FileHandler.save_excel_file serialize write_ok rename_ok fs t path).2 =
        some ErrorKind.WriteError) ∧
    ((FileHandler.save_excel_file serialize write_ok rename_ok fs t path).2 ≠ none →
      (FileHandler.save_excel_file serialize write_ok rename_ok fs t path).1.get path =
        fs.get path) ∧
    ((FileHandler.save_excel_file serialize write_ok rename_ok fs t path).2 = none →
      (FileHandler.save_excel_file serialize write_ok rename_ok fs t path).1.get path =
        some (serialize t) ∧
      (FileHandler.save_excel_file serialize write_ok rename_ok fs t path).1.get
        (tmpPath path) = none) := by
  have hne : path ≠ tmpPath path := fun h => tmpPath_ne path h.symm
  cases write_ok with
  | false =>
    refine ⟨by simp [FileHandler.save_excel_file], ?_, ?_⟩
    · intro _
      rfl
    · intro h
      exact absurd h (by simp [FileHandler.save_excel_file])
  | true =>
    cases rename_ok with
    | false =>
      refine ⟨by simp [FileHandler.save_excel_file], ?_, ?_⟩
      · intro _
        show (fs.set (tmpPath path) (serialize t)).get path = fs.get path
        rw [FS.get_set, if_neg hne]
      · intro h
        exact absurd h (by simp [FileHandler.save_excel_file])
    | true =>
      refine ⟨by simp [FileHandler.save_excel_file], ?_, ?_⟩
      · intro h
        exact absurd rfl h
      · intro _
        constructor
        · show (((fs.set (tmpPath path) (serialize t)).remove (tmpPath path)).set path
              (serialize t)).get path = some (serialize t)
          rw [FS.get_set, if_pos rfl]
        · show (((fs.set (tmpPath path) (serialize t)).remove (tmpPath path)).set path
              (serialize t)).get (tmpPath path) = none
          rw [FS.get_set, if_neg (tmpPath_ne path)]
          exact FS.get_remove_self _ _

/-- Witness for C9: a failed temporary write leaves the old destination content in
place, and a fully successful save replaces it by the serialized table and removes the
temporary file. -/
theorem save_atomic_witness :
    (FileHandler.save_excel_file ser0 false true fs0 t0 "out.xlsx").1.get "out.xlsx" =
      fs0.get "out.xlsx" ∧
    (FileHandler.save_excel_file ser0 true true fs0 t0 "out.xlsx").1.get "out.xlsx" =
      some (ser0 t0) ∧
    (FileHandler.save_excel_file ser0 true true fs0 t0 "out.xlsx").1.get
      (tmpPath "out.xlsx") = none :=
  ⟨(save_atomic ser0 false true fs0 t0 "out.xlsx").2.1 (by decide),
    ((save_atomic ser0 true true fs0 t0 "out.xlsx").2.2 (by decide)).1,
    ((save_atomic ser0 true true fs0 t0 "out.xlsx").2.2 (by decide)).2⟩
